import Mathlib

set_option maxHeartbeats 1000000

/-!
Verification of the chunked-transfer core of the optimized-file-uploader
repository.  The client components (`TraditionalMode.tsx`, `OptimizedMode.tsx`)
split a file into `CHUNK_SIZE` slices, upload them in windows of
`PARALLEL_CHUNKS`, and the server (`routes.ts`, chunked variant) stores the
chunks per upload session and concatenates them on `/chunk/complete`; the
download path probes the size and fetches byte ranges.  Files are modelled as
lists of bytes, the disk directories and the object store as association
lists, and every endpoint as a pure function on an explicit server state.
-/

namespace FileUploader

/-- A file's payload: a list of byte values. -/
abbrev Bytes := List Nat

/-- Result of an HTTP call: an error response or a success payload. -/
inductive Outcome (ε α : Type) where
  | err (e : ε)
  | ok (a : α)
deriving DecidableEq, Repr

/-! ### Association-list stores

Session directories (`uploads/chunks/<uploadId>`), the local persistent
storage (`uploads/permanent`) and the MinIO bucket are all key/value stores;
writing a key replaces any previous entry (`fs.renameSync` replaces the file,
a MinIO `PUT` replaces the object). -/

/-- Look up a key in an association list (first entry wins). -/
def alookup {κ β : Type} [DecidableEq κ] : List (κ × β) → κ → Option β
  | [], _ => none
  | (k, v) :: rest, key => if key = k then some v else alookup rest key

/-- Write a key, replacing any previous entry (file rename / object PUT). -/
def aset {κ β : Type} [DecidableEq κ] (l : List (κ × β)) (key : κ) (v : β) :
    List (κ × β) :=
  (key, v) :: l.filter (fun p => if p.1 = key then false else true)

/-- Update the value stored at a key in place, leaving other keys alone. -/
def aupdate {κ β : Type} [DecidableEq κ] (l : List (κ × β)) (key : κ)
    (f : β → β) : List (κ × β) :=
  l.map (fun p => if p.1 = key then (p.1, f p.2) else p)

theorem alookup_cons {κ β : Type} [DecidableEq κ]
    (k : κ) (v : β) (rest : List (κ × β)) (j : κ) :
    alookup ((k, v) :: rest) j = if j = k then some v else alookup rest j :=
  rfl

theorem aupdate_cons {κ β : Type} [DecidableEq κ]
    (k : κ) (v : β) (rest : List (κ × β)) (key : κ) (f : β → β) :
    aupdate ((k, v) :: rest) key f
      = (if k = key then (k, f v) else (k, v)) :: aupdate rest key f := by
  rw [aupdate, List.map_cons, ← aupdate]

theorem alookup_filter_ne {κ β : Type} [DecidableEq κ]
    (l : List (κ × β)) (key j : κ) (h : j ≠ key) :
    alookup (l.filter (fun p => if p.1 = key then false else true)) j
      = alookup l j := by
  induction l with
  | nil => rfl
  | cons p rest ih =>
    rcases p with ⟨k, v⟩
    rw [List.filter_cons]
    by_cases hk : k = key
    · rw [if_neg (by simp [hk])]
      rw [ih, alookup_cons, if_neg (by rw [hk]; exact h)]
    · rw [if_pos (by simp [hk])]
      rw [alookup_cons, alookup_cons]
      by_cases hj : j = k
      · rw [if_pos hj, if_pos hj]
      · rw [if_neg hj, if_neg hj, ih]

theorem alookup_aset_self {κ β : Type} [DecidableEq κ]
    (l : List (κ × β)) (key : κ) (v : β) :
    alookup (aset l key v) key = some v := by
  rw [aset, alookup_cons, if_pos rfl]

theorem alookup_aset_ne {κ β : Type} [DecidableEq κ]
    (l : List (κ × β)) (key j : κ) (v : β) (h : j ≠ key) :
    alookup (aset l key v) j = alookup l j := by
  rw [aset, alookup_cons, if_neg h]
  exact alookup_filter_ne l key j h

theorem aset_aset {κ β : Type} [DecidableEq κ]
    (l : List (κ × β)) (key : κ) (v v' : β) :
    aset (aset l key v) key v' = aset l key v' := by
  rw [aset, aset, aset, List.filter_cons]
  rw [if_neg (by simp)]
  rw [List.filter_filter]
  congr 1
  apply List.filter_congr
  intro p _
  by_cases hk : p.1 = key <;> simp [hk]

theorem alookup_aupdate_self {κ β : Type} [DecidableEq κ]
    (l : List (κ × β)) (key : κ) (f : β → β) :
    alookup (aupdate l key f) key = (alookup l key).map f := by
  induction l with
  | nil => rfl
  | cons p rest ih =>
    rcases p with ⟨k, v⟩
    rw [aupdate_cons]
    by_cases hk : k = key
    · rw [if_pos hk, alookup_cons, alookup_cons]
      rw [if_pos hk.symm, if_pos hk.symm]
      rfl
    · have hk' : ¬ key = k := fun hh => hk hh.symm
      rw [if_neg hk, alookup_cons, alookup_cons]
      rw [if_neg hk', if_neg hk']
      exact ih

theorem alookup_aupdate_ne {κ β : Type} [DecidableEq κ]
    (l : List (κ × β)) (key j : κ) (f : β → β) (h : j ≠ key) :
    alookup (aupdate l key f) j = alookup l j := by
  induction l with
  | nil => rfl
  | cons p rest ih =>
    rcases p with ⟨k, v⟩
    rw [aupdate_cons]
    by_cases hk : k = key
    · rw [if_pos hk, alookup_cons, alookup_cons]
      have hj : ¬ j = k := by rw [hk]; exact h
      rw [if_neg hj, if_neg hj]
      exact ih
    · rw [if_neg hk, alookup_cons, alookup_cons]
      by_cases hj : j = k
      · rw [if_pos hj, if_pos hj]
      · rw [if_neg hj, if_neg hj]
        exact ih

theorem aupdate_aupdate {κ β : Type} [DecidableEq κ]
    (l : List (κ × β)) (key : κ) (f g : β → β) :
    aupdate (aupdate l key f) key g = aupdate l key (fun b => g (f b)) := by
  induction l with
  | nil => rfl
  | cons p rest ih =>
    rcases p with ⟨k, v⟩
    rw [aupdate_cons]
    by_cases hk : k = key
    · rw [if_pos hk, aupdate_cons, aupdate_cons, if_pos hk, if_pos hk, ih]
    · rw [if_neg hk, aupdate_cons, aupdate_cons, if_neg hk, if_neg hk, ih]

theorem aupdate_id {κ β : Type} [DecidableEq κ] (l : List (κ × β)) (key : κ) :
    aupdate l key (fun b => b) = l := by
  induction l with
  | nil => rfl
  | cons p rest ih =>
    rcases p with ⟨k, v⟩
    rw [aupdate_cons, ih]
    by_cases hk : k = key
    · rw [if_pos hk]
    · rw [if_neg hk]

/-! ### Client-side chunking

`TraditionalMode.tsx` / `OptimizedMode.tsx`:
`const CHUNK_SIZE = 5 * 1024 * 1024; const PARALLEL_CHUNKS = 3;`
`const totalChunks = Math.ceil(file.size / CHUNK_SIZE);`
`const start = chunkIndex * CHUNK_SIZE;`
`const end = Math.min(start + CHUNK_SIZE, file.size);`
`const chunk = file.slice(start, end);` -/

/-- `CHUNK_SIZE = 5 * 1024 * 1024` (5 MiB). -/
def CHUNK_SIZE : Nat := 5 * 1024 * 1024

/-- `PARALLEL_CHUNKS = 3`: the concurrency window size. -/
def PARALLEL_CHUNKS : Nat := 3

/-- `Math.ceil(size / C)` on naturals, as the client computes the part count. -/
def totalChunks (size C : Nat) : Nat := (size + C - 1) / C

/-- `file.slice(a, b)`: the bytes in positions `[a, b)`, clamped to the file. -/
def fileSlice (file : Bytes) (a b : Nat) : Bytes :=
  (file.drop a).take (b - a)

/-- The chunk at index `i`: `file.slice(i*C, min(i*C + C, file.size))`. -/
def chunkOf (file : Bytes) (C i : Nat) : Bytes :=
  fileSlice file (i * C) (min (i * C + C) file.length)

/-- All chunks of a file in index order, as produced by the upload loop. -/
def splitChunks (file : Bytes) (C : Nat) : List Bytes :=
  (List.range (totalChunks file.length C)).map (chunkOf file C)

/-! ### Arithmetic facts about `totalChunks` -/

theorem totalChunks_le_iff {len C k : Nat} (hC : 0 < C) :
    totalChunks len C ≤ k ↔ len ≤ k * C := by
  rw [totalChunks, Nat.div_le_iff_le_mul_add_pred hC]
  rw [Nat.mul_comm k C]
  omega

theorem lt_totalChunks_iff {len C i : Nat} (hC : 0 < C) :
    i < totalChunks len C ↔ i * C < len := by
  rw [← Nat.not_le, ← Nat.not_le, not_iff_not]
  exact totalChunks_le_iff hC

theorem len_le_totalChunks_mul {len C : Nat} (hC : 0 < C) :
    len ≤ totalChunks len C * C :=
  (totalChunks_le_iff hC).mp (Nat.le_refl _)

theorem take_add_split {α : Type} (l : List α) (m n : Nat) :
    l.take (m + n) = l.take m ++ (l.drop m).take n := by
  induction l generalizing m with
  | nil => simp
  | cons x xs ih =>
    cases m with
    | zero => simp
    | succ m =>
      have h : m + 1 + n = (m + n) + 1 := by omega
      rw [h]
      simp only [List.take_succ_cons, List.drop_succ_cons, List.cons_append]
      rw [ih]

theorem chunkOf_eq_drop_take (file : Bytes) (C i : Nat) :
    chunkOf file C i = (file.drop (i * C)).take C := by
  rw [chunkOf, fileSlice]
  by_cases h : i * C + C ≤ file.length
  · have hmin : min (i * C + C) file.length = i * C + C := by omega
    rw [hmin]
    congr 1
    omega
  · have hmin : min (i * C + C) file.length = file.length := by omega
    rw [hmin]
    have hlen : (file.drop (i * C)).length = file.length - i * C := by
      simp [List.length_drop]
    rw [List.take_of_length_le (by omega), List.take_of_length_le (by omega)]

theorem join_range_chunk (file : Bytes) (C : Nat) :
    ∀ n, ((List.range n).map (fun i => (file.drop (i * C)).take C)).flatten
      = file.take (n * C) := by
  intro n
  induction n with
  | zero => simp
  | succ n ih =>
    rw [List.range_succ, List.map_append, List.flatten_append, ih]
    simp only [List.map_cons, List.map_nil, List.flatten_cons, List.flatten_nil,
      List.append_nil]
    rw [← take_add_split, Nat.succ_mul]

/-- Concatenating the chunks in index order reproduces the file. -/
theorem join_splitChunks (file : Bytes) (C : Nat) (hC : 0 < C) :
    (splitChunks file C).flatten = file := by
  rw [splitChunks]
  have hcongr : (List.range (totalChunks file.length C)).map (chunkOf file C)
      = (List.range (totalChunks file.length C)).map
          (fun i => (file.drop (i * C)).take C) := by
    apply List.map_congr_left
    intro i _
    exact chunkOf_eq_drop_take file C i
  rw [hcongr, join_range_chunk]
  exact List.take_of_length_le (len_le_totalChunks_mul hC)

/-! ### Server state and the traditional chunk endpoints

`routes.ts` (chunked variant): sessions are directories
`uploads/chunks/<uploadId>` holding files `chunk_<index>`, and completed
objects live in `uploads/permanent/<filename>`. -/

/-- A chunk session directory: recorded `chunk_<index>` files. -/
abbrev ChunkDir := List (Nat × Bytes)

/-- The server's mutable state: chunk sessions plus persistent storage. -/
structure ServerState where
  sessions : List (String × ChunkDir)
  persistent : List (String × Bytes)
deriving DecidableEq, Repr

/-- The server before any request. -/
def emptyServerState : ServerState := { sessions := [], persistent := [] }

/-- Error responses of the chunk upload endpoints. -/
inductive ChunkError where
  | invalidArgument
  | sessionNotFound
  | missingChunk (i : Nat)
deriving DecidableEq, Repr

/-- `POST /traditional/chunk/init`.  The body carries `filename` and
`totalChunks` (a JSON number, hence modelled as `Int`); the handler rejects
with 400 when either is falsy (`!filename || !totalChunks`), otherwise it
creates the session directory for a fresh `uploadId`
(`Date.now()-random`, modelled as the supplied `freshId`);
`fs.mkdirSync(..., recursive)` on an existing directory keeps its contents. -/
def chunkInit (st : ServerState) (filename : String) (totalChunksBody : Int)
    (freshId : String) : Outcome ChunkError (ServerState × String) :=
  if filename = "" ∨ totalChunksBody = 0 then .err .invalidArgument
  else
    .ok ({ st with sessions :=
            if (alookup st.sessions freshId).isSome then st.sessions
            else (freshId, []) :: st.sessions },
         freshId)

/-- `POST /traditional/chunk/upload`: 404 when the session directory does not
exist; otherwise `fs.renameSync` moves the received chunk to
`chunk_<chunkIndex>`, replacing any previous file of that name.  No range
check is performed on `chunkIndex`. -/
def chunkUploadEp (st : ServerState) (uploadId : String) (chunkIndex : Nat)
    (payload : Bytes) : Outcome ChunkError ServerState :=
  match alookup st.sessions uploadId with
  | none => .err .sessionNotFound
  | some _ =>
      .ok { st with sessions :=
              aupdate st.sessions uploadId (fun dir => aset dir chunkIndex payload) }

/-- The first index in `[0, tc)` whose chunk file is missing, if any
(the loop in `/chunk/complete` stops at the first `!fs.existsSync`). -/
def firstMissing (dir : ChunkDir) (tc : Nat) : Option Nat :=
  (List.range tc).find? (fun i => (alookup dir i).isNone)

/-- Bytes written by the complete-loop for indices `[0, n)` in index order. -/
def joinUpTo (dir : ChunkDir) (n : Nat) : Bytes :=
  ((List.range n).map (fun i => (alookup dir i).getD [])).flatten

/-- `POST /traditional/chunk/complete`: 400 when a body field is falsy;
otherwise it opens a write stream on `uploads/permanent/<filename>` and
appends `chunk_0 .. chunk_(totalChunks-1)` in index order, answering 400
`Missing chunk i` at the first absent index (the target file keeps the
already-written prefix); on success the session directory is removed. -/
def chunkCompleteEp (st : ServerState) (uploadId filename : String)
    (totalChunksBody : Int) : ServerState × Outcome ChunkError String :=
  if uploadId = "" ∨ filename = "" ∨ totalChunksBody = 0 then
    (st, .err .invalidArgument)
  else
    let dir := (alookup st.sessions uploadId).getD []
    let tc := totalChunksBody.toNat
    match firstMissing dir tc with
    | some i =>
        ({ st with persistent := aset st.persistent filename (joinUpTo dir i) },
         .err (.missingChunk i))
    | none =>
        ({ sessions := st.sessions.filter
              (fun p => if p.1 = uploadId then false else true),
           persistent := aset st.persistent filename (joinUpTo dir tc) },
         .ok filename)

/-- Error responses of `GET /traditional/chunk/download/:filename`. -/
inductive DlError where
  | notFound
  | streamError
deriving DecidableEq, Repr

/-- A response of the chunk download endpoint: either the size probe
(`res.json({ size })`, no payload bytes) or a streamed byte range. -/
inductive DownloadResponse where
  | sizeInfo (size : Nat)
  | payload (bytes : Bytes)
deriving DecidableEq, Repr

/-- The payload bytes a response transfers; a size probe transfers none. -/
def DownloadResponse.transferredBytes : DownloadResponse → Bytes
  | .sizeInfo _ => []
  | .payload b => b

/-- `fs.createReadStream(filePath, { start, end })`: the bytes in positions
`[start, stop]` (inclusive), clamped at the end of file. -/
def serveRange (file : Bytes) (start stop : Nat) : Bytes :=
  (file.drop start).take (stop + 1 - start)

/-- `GET /traditional/chunk/download/:filename?start=..&end=..`: 404 when the
file is absent; when `end` is missing (`parseInt` yields `NaN`) the handler
answers `res.json({ size: stat.size })` and returns; otherwise it streams the
inclusive byte range `[start, end]` (`start` defaults to 0; a read stream
with `start > end` throws, caught as a 500). -/
def chunkDownloadEp (st : ServerState) (filename : String)
    (startQ endQ : Option Nat) : Outcome DlError DownloadResponse :=
  match alookup st.persistent filename with
  | none => .err .notFound
  | some file =>
      match endQ with
      | none => .ok (.sizeInfo file.length)
      | some stop =>
          let start := startQ.getD 0
          if stop < start then .err .streamError
          else .ok (.payload (serveRange file start stop))

/-! ### Lengths of the produced chunks (claim C2) -/

theorem chunkOf_length_of_succ_lt {file : Bytes} {C i : Nat} (hC : 0 < C)
    (h : i + 1 < totalChunks file.length C) :
    (chunkOf file C i).length = C := by
  have hlt : (i + 1) * C < file.length := by
    have := (lt_totalChunks_iff hC).mp (Nat.lt_of_succ_lt h)
    have h2 : (i + 1) * C < file.length := by
      have := (lt_totalChunks_iff hC).mp
        (show i + 1 < totalChunks file.length C from h)
      exact this
    exact h2
  rw [chunkOf_eq_drop_take]
  simp only [List.length_take, List.length_drop]
  have : i * C + C ≤ file.length := by
    have : (i + 1) * C = i * C + C := by rw [Nat.succ_mul]
    omega
  omega

theorem chunkOf_length_last {file : Bytes} {C : Nat} (hC : 0 < C)
    (h : 0 < totalChunks file.length C) :
    (chunkOf file C (totalChunks file.length C - 1)).length
      = if file.length % C = 0 then C else file.length % C := by
  set tc := totalChunks file.length C with htc
  have hlen : 0 < file.length := by
    by_contra hz
    have : file.length = 0 := by omega
    rw [this] at htc
    have : tc = 0 := by
      rw [htc, totalChunks]
      exact Nat.div_eq_of_lt (by omega)
    omega
  have hlast_lt : (tc - 1) * C < file.length :=
    (lt_totalChunks_iff hC).mp (by omega)
  have hle : file.length ≤ tc * C := len_le_totalChunks_mul hC
  have htc_mul : tc * C = (tc - 1) * C + C := by
    have h1 : tc = (tc - 1) + 1 := by omega
    calc tc * C = ((tc - 1) + 1) * C := by rw [← h1]
    _ = (tc - 1) * C + C := by rw [Nat.succ_mul]
  rw [chunkOf_eq_drop_take]
  simp only [List.length_take, List.length_drop]
  -- the last chunk's length is `file.length - (tc - 1) * C`
  have hlen_eq : min C (file.length - (tc - 1) * C) = file.length - (tc - 1) * C := by
    omega
  rw [hlen_eq]
  -- relate it to `file.length % C` via `file.length = C * q + r`
  have hdm := Nat.div_add_mod file.length C
  have hmod_lt : file.length % C < C := Nat.mod_lt _ hC
  set q := file.length / C with hq
  set r := file.length % C with hr
  have hmulc : (tc - 1) * C = C * (tc - 1) := Nat.mul_comm _ _
  by_cases hr0 : r = 0
  · rw [if_pos hr0]
    have hfl : file.length = C * q := by omega
    have h1 : C * (tc - 1) < C * q := by omega
    have h2 : C * q ≤ C * (tc - 1 + 1) := by
      rw [Nat.mul_succ]
      omega
    have htc1_lt : tc - 1 < q := Nat.lt_of_mul_lt_mul_left h1
    have hq_le : q ≤ tc - 1 + 1 := Nat.le_of_mul_le_mul_left h2 hC
    have hqeq : q = tc - 1 + 1 := by omega
    have hfl2 : file.length = C * (tc - 1) + C := by
      rw [hfl, hqeq, Nat.mul_succ]
    omega
  · rw [if_neg hr0]
    have h1 : C * (tc - 1) < C * (q + 1) := by
      rw [Nat.mul_succ]
      omega
    have h2 : C * q < C * (tc - 1 + 1) := by
      rw [Nat.mul_succ]
      omega
    have htc1_le : tc - 1 ≤ q := by
      have := Nat.lt_of_mul_lt_mul_left h1
      omega
    have hq_le : q ≤ tc - 1 := by
      have := Nat.lt_of_mul_lt_mul_left h2
      omega
    have hqeq : tc - 1 = q := by omega
    have hmul2 : (tc - 1) * C = C * q := by rw [hmulc, hqeq]
    omega

/-- C2: the splitter yields `ceil(len/C)` parts (characterised by the Galois
property of ceiling division), their lengths sum to `len`, every part but the
last has length `C`, and the last has length `len mod C`, or `C` when that
remainder is zero. -/
theorem splitter_spec (file : Bytes) (C : Nat) (hC : 0 < C) :
    (splitChunks file C).length = totalChunks file.length C
    ∧ (∀ k, totalChunks file.length C ≤ k ↔ file.length ≤ k * C)
    ∧ ((splitChunks file C).map List.length).sum = file.length
    ∧ (∀ i, i + 1 < totalChunks file.length C → (chunkOf file C i).length = C)
    ∧ (0 < totalChunks file.length C →
        (chunkOf file C (totalChunks file.length C - 1)).length
          = if file.length % C = 0 then C else file.length % C) := by
  refine ⟨?_, ?_, ?_, ?_, ?_⟩
  · rw [splitChunks, List.length_map, List.length_range]
  · intro k
    exact totalChunks_le_iff hC
  · rw [← List.length_flatten, join_splitChunks file C hC]
  · intro i hi
    exact chunkOf_length_of_succ_lt hC hi
  · intro h
    exact chunkOf_length_last hC h

/-- C2 witness: a 5-byte file with chunk size 2 gives parts of lengths
2, 2, 1. -/
theorem splitter_spec_witness :
    (splitChunks [1, 2, 3, 4, 5] 2).length = totalChunks 5 2
    ∧ ((splitChunks [1, 2, 3, 4, 5] 2).map List.length).sum = 5
    ∧ (chunkOf [1, 2, 3, 4, 5] 2 0).length = 2
    ∧ (chunkOf [1, 2, 3, 4, 5] 2 (totalChunks 5 2 - 1)).length = 1 := by
  have h := splitter_spec [1, 2, 3, 4, 5] 2 (by decide)
  refine ⟨h.1, ?_, ?_, ?_⟩
  · have := h.2.2.1
    simpa using this
  · exact h.2.2.2.1 0 (by decide)
  · have := h.2.2.2.2 (by decide)
    simpa using this

/-! ### Client drivers (`TraditionalMode.tsx`)

`handleChunkedUpload` posts `chunk/init`, uploads all chunks (in windows of
`PARALLEL_CHUNKS`; each chunk's server effect is keyed by its index, so the
sequential index-order linearisation below is effect-equivalent), then posts
`chunk/complete`.  `handleChunkedDownload` probes the size, fetches each
byte range into `chunks[chunkIndex]`, and concatenates with `new Blob`. -/

/-- Upload the listed chunk indices one request at a time, stopping at the
first error (the client aborts the job on any failed part). -/
def uploadChunks (uploadId : String) (file : Bytes) (C : Nat) :
    ServerState → List Nat → Outcome ChunkError ServerState
  | st, [] => .ok st
  | st, j :: js =>
      match chunkUploadEp st uploadId j (chunkOf file C j) with
      | .err e => .err e
      | .ok st' => uploadChunks uploadId file C st' js

/-- The whole chunked upload: init, all chunk uploads, complete.  Returns the
final server state together with the completion outcome. -/
def clientChunkedUpload (st : ServerState) (filename : String) (file : Bytes)
    (C : Nat) (freshId : String) : ServerState × Outcome ChunkError String :=
  let tc := totalChunks file.length C
  match chunkInit st filename (tc : Int) freshId with
  | .err e => (st, .err e)
  | .ok (st1, uploadId) =>
      match uploadChunks uploadId file C st1 (List.range tc) with
      | .err e => (st1, .err e)
      | .ok st2 => chunkCompleteEp st2 uploadId filename (tc : Int)

/-- One `downloadChunk(chunkIndex)` request:
`start = i*C`, `end = min(start + C, fileSize) - 1`. -/
def downloadChunkCall (st : ServerState) (filename : String)
    (size C i : Nat) : Outcome DlError Bytes :=
  let start := i * C
  let stop := min (start + C) size - 1
  match chunkDownloadEp st filename (some start) (some stop) with
  | .ok (.payload b) => .ok b
  | .ok (.sizeInfo _) => .err .streamError
  | .err e => .err e

/-- Fetch the listed chunk indices, collecting the payloads in order. -/
def downloadAll (st : ServerState) (filename : String) (size C : Nat) :
    List Nat → Outcome DlError (List Bytes)
  | [] => .ok []
  | j :: js =>
      match downloadChunkCall st filename size C j with
      | .err e => .err e
      | .ok b =>
          match downloadAll st filename size C js with
          | .err e => .err e
          | .ok bs => .ok (b :: bs)

/-- The whole chunked download: size probe, range requests, concatenation. -/
def clientChunkedDownload (st : ServerState) (filename : String) (C : Nat) :
    Outcome DlError Bytes :=
  match chunkDownloadEp st filename none none with
  | .err e => .err e
  | .ok (.payload _) => .err .streamError
  | .ok (.sizeInfo size) =>
      match downloadAll st filename size C (List.range (totalChunks size C)) with
      | .err e => .err e
      | .ok chunks => .ok chunks.flatten

/-! ### The direct (presigned-URL) strategy, `OptimizedMode.tsx`

`handleChunkedUpload` PUTs every chunk to a presigned URL for
`` `${file.name}.part${chunkIndex}` `` and then PUTs the whole file to a
presigned URL for `file.name`.  `handleChunkedDownload` reads the size from a
`HEAD` request and issues `Range: bytes=start-end` GETs against the presigned
object URL. -/

/-- The object name a chunk is PUT under: `` `${name}.part${i}` ``. -/
def partName (name : String) (i : Nat) : String :=
  name ++ ".part" ++ toString i

/-- The bucket after a fully successful direct chunked upload: every chunk
object is PUT, then the whole file is PUT under the target name. -/
def optimizedChunkedUploadStore (bucket : List (String × Bytes))
    (name : String) (file : Bytes) (C : Nat) : List (String × Bytes) :=
  aset ((List.range (totalChunks file.length C)).foldl
          (fun b j => aset b (partName name j) (chunkOf file C j)) bucket)
       name file

/-- A ranged GET against the object store (inclusive `Range: bytes=a-b`,
clamped at the object's end), as MinIO serves it for in-range requests. -/
def bucketRangeGet (obj : Bytes) (start stop : Nat) : Bytes :=
  serveRange obj start stop

/-- The direct chunked download: `HEAD` size, ranged GETs, `new Blob`. -/
def optimizedChunkedDownload (bucket : List (String × Bytes))
    (name : String) (C : Nat) : Option Bytes :=
  match alookup bucket name with
  | none => none
  | some obj =>
      let size := obj.length
      some (((List.range (totalChunks size C)).map (fun i =>
        bucketRangeGet obj (i * C) (min (i * C + C) size - 1))).flatten)

/-! ### Supporting lemmas for the round trip (claim C1) -/

theorem serveRange_eq_chunkOf {file : Bytes} {C i : Nat} (hC : 0 < C)
    (hi : i < totalChunks file.length C) :
    serveRange file (i * C) (min (i * C + C) file.length - 1)
      = chunkOf file C i := by
  have hstart : i * C < file.length := (lt_totalChunks_iff hC).mp hi
  rw [serveRange, chunkOf, fileSlice]
  congr 1
  omega

theorem join_map_serveRange (file : Bytes) (C : Nat) (hC : 0 < C) :
    ((List.range (totalChunks file.length C)).map (fun i =>
        serveRange file (i * C) (min (i * C + C) file.length - 1))).flatten
      = file := by
  have hcongr : (List.range (totalChunks file.length C)).map (fun i =>
        serveRange file (i * C) (min (i * C + C) file.length - 1))
      = (List.range (totalChunks file.length C)).map (chunkOf file C) := by
    apply List.map_congr_left
    intro i hi
    exact serveRange_eq_chunkOf hC (List.mem_range.mp hi)
  rw [hcongr, ← splitChunks]
  exact join_splitChunks file C hC

theorem uploadChunks_ok (uploadId : String) (file : Bytes) (C : Nat) :
    ∀ (js : List Nat) (st : ServerState) (dir : ChunkDir),
      alookup st.sessions uploadId = some dir →
      uploadChunks uploadId file C st js
        = .ok { st with
                sessions := aupdate st.sessions uploadId (fun d =>
                  js.foldl (fun acc j => aset acc j (chunkOf file C j)) d) } := by
  intro js
  induction js with
  | nil =>
      intro st dir h
      simp only [uploadChunks, List.foldl_nil, aupdate_id]
  | cons j js ih =>
      intro st dir h
      simp only [uploadChunks, chunkUploadEp, h]
      have hlook : alookup
          (aupdate st.sessions uploadId (fun d => aset d j (chunkOf file C j)))
          uploadId = some (aset dir j (chunkOf file C j)) := by
        rw [alookup_aupdate_self, h]
        rfl
      rw [ih { st with
               sessions := aupdate st.sessions uploadId (fun d =>
                 aset d j (chunkOf file C j)) }
            (aset dir j (chunkOf file C j)) hlook]
      rw [aupdate_aupdate]
      rfl

theorem alookup_foldl_aset (g : Nat → Bytes) :
    ∀ (js : List Nat) (d : ChunkDir) (i : Nat),
      alookup (js.foldl (fun acc j => aset acc j (g j)) d) i
        = if i ∈ js then some (g i) else alookup d i := by
  intro js
  induction js with
  | nil =>
      intro d i
      simp
  | cons j js ih =>
      intro d i
      rw [List.foldl_cons, ih]
      by_cases hmem : i ∈ js
      · rw [if_pos hmem, if_pos (List.mem_cons_of_mem j hmem)]
      · rw [if_neg hmem]
        by_cases hij : i = j
        · rw [if_pos (by rw [hij]; exact List.mem_cons_self j js)]
          rw [hij, alookup_aset_self]
        · rw [if_neg (by
            intro hc
            rcases List.mem_cons.mp hc with h1 | h2
            · exact hij h1
            · exact hmem h2)]
          exact alookup_aset_ne d j i (g j) hij

theorem downloadAll_ok (st : ServerState) (filename : String)
    (size C : Nat) (g : Nat → Bytes) :
    ∀ js : List Nat,
      (∀ j ∈ js, downloadChunkCall st filename size C j = .ok (g j)) →
      downloadAll st filename size C js = .ok (js.map g) := by
  intro js
  induction js with
  | nil =>
      intro _
      rfl
  | cons j js ih =>
      intro h
      rw [downloadAll, h j (List.mem_cons_self j js),
        ih (fun j' hj' => h j' (List.mem_cons_of_mem j hj')), List.map_cons]

/-- Once the object is stored, the chunked download reassembles it exactly. -/
theorem clientChunkedDownload_stored {st : ServerState} {name : String}
    {file : Bytes} {C : Nat} (hC : 0 < C)
    (h : alookup st.persistent name = some file) :
    clientChunkedDownload st name C = .ok file := by
  have hcall : ∀ j ∈ List.range (totalChunks file.length C),
      downloadChunkCall st name file.length C j = .ok (chunkOf file C j) := by
    intro j hj
    have hj' : j < totalChunks file.length C := List.mem_range.mp hj
    have hstart : j * C < file.length := (lt_totalChunks_iff hC).mp hj'
    have hnotlt : ¬ (min (j * C + C) file.length - 1 < j * C) := by omega
    simp only [downloadChunkCall, chunkDownloadEp, h, Option.getD_some]
    rw [if_neg hnotlt]
    rw [serveRange_eq_chunkOf hC hj']
  simp only [clientChunkedDownload, chunkDownloadEp, h]
  rw [downloadAll_ok st name file.length C (chunkOf file C) _ hcall]
  exact congrArg Outcome.ok (by
    rw [← splitChunks]
    exact join_splitChunks file C hC)

/-- C1: for every file and chunk size `C > 0`, downloading the object
produced by a chunked upload yields the original bytes — for the proxied
strategy (chunk/init, chunk uploads, chunk/complete, ranged chunk download
of whatever object the upload stored) and for the direct strategy
(presigned chunk PUTs plus whole-file PUT, then ranged download). -/
theorem chunked_round_trip (file : Bytes) (C : Nat) (hC : 0 < C) :
    (∀ (filename freshId f' : String) (st' : ServerState),
        clientChunkedUpload emptyServerState filename file C freshId
          = (st', .ok f') →
        clientChunkedDownload st' f' C = .ok file)
    ∧ (∀ (bucket : List (String × Bytes)) (name : String),
        optimizedChunkedDownload
          (optimizedChunkedUploadStore bucket name file C) name C
          = some file) := by
  constructor
  · intro filename freshId f' st' hup
    by_cases hbad : filename = "" ∨ ((totalChunks file.length C : Nat) : Int) = 0
    · exfalso
      simp only [clientChunkedUpload, chunkInit, if_pos hbad, Prod.mk.injEq]
        at hup
      exact Outcome.noConfusion hup.2
    · have hinit : chunkInit emptyServerState filename
          ((totalChunks file.length C : Nat) : Int) freshId
          = .ok ({ sessions := [(freshId, [])], persistent := [] }, freshId) := by
        rw [chunkInit, if_neg hbad]
        rfl
      simp only [clientChunkedUpload, hinit] at hup
      have h0 : alookup
          ({ sessions := [(freshId, ([] : ChunkDir))],
             persistent := [] } : ServerState).sessions freshId
          = some [] := by
        simp [alookup]
      have hupch := uploadChunks_ok freshId file C
        (List.range (totalChunks file.length C)) _ _ h0
      have hsing : aupdate [(freshId, ([] : ChunkDir))] freshId (fun d =>
            (List.range (totalChunks file.length C)).foldl
              (fun acc j => aset acc j (chunkOf file C j)) d)
          = [(freshId,
              (List.range (totalChunks file.length C)).foldl
                (fun acc j => aset acc j (chunkOf file C j)) [])] := by
        rw [aupdate_cons, if_pos rfl]
        rfl
      rw [hsing] at hupch
      simp only [hupch] at hup
      -- the session directory after all chunk uploads
      set D := (List.range (totalChunks file.length C)).foldl
        (fun acc j => aset acc j (chunkOf file C j)) [] with hDdef
      have hD : ∀ i, alookup D i
          = if i ∈ List.range (totalChunks file.length C)
            then some (chunkOf file C i) else none := by
        intro i
        rw [hDdef, alookup_foldl_aset]
        rfl
      by_cases hfid : freshId = ""
      · exfalso
        simp only [chunkCompleteEp, if_pos (Or.inl hfid), Prod.mk.injEq] at hup
        exact Outcome.noConfusion hup.2
      · have hguard : ¬ (freshId = "" ∨ filename = ""
            ∨ ((totalChunks file.length C : Nat) : Int) = 0) := by
          push_neg at hbad ⊢
          exact ⟨hfid, hbad.1, hbad.2⟩
        have hfm : firstMissing D (totalChunks file.length C) = none := by
          rw [firstMissing, List.find?_eq_none]
          intro i hi
          rw [hD i, if_pos hi]
          simp
        have hjoin : joinUpTo D (totalChunks file.length C) = file := by
          rw [joinUpTo]
          have hmap : (List.range (totalChunks file.length C)).map
                (fun i => (alookup D i).getD [])
              = (List.range (totalChunks file.length C)).map (chunkOf file C) := by
            apply List.map_congr_left
            intro i hi
            rw [hD i, if_pos hi]
            rfl
          rw [hmap, ← splitChunks]
          exact join_splitChunks file C hC
        simp only [chunkCompleteEp, if_neg hguard, Int.toNat_natCast] at hup
        have hdir : (alookup
            ([(freshId, D)] : List (String × ChunkDir)) freshId).getD [] = D := by
          rw [alookup_cons, if_pos rfl]
          rfl
        rw [hdir, hfm] at hup
        simp only [Prod.mk.injEq, Outcome.ok.injEq] at hup
        obtain ⟨hst, hf⟩ := hup
        subst hst
        subst hf
        apply clientChunkedDownload_stored hC
        rw [hjoin]
        exact alookup_aset_self _ _ _
  · intro bucket name
    have hlook : alookup (optimizedChunkedUploadStore bucket name file C) name
        = some file := by
      rw [optimizedChunkedUploadStore]
      exact alookup_aset_self _ _ _
    simp only [optimizedChunkedDownload, hlook]
    exact congrArg some (by
      simp only [bucketRangeGet]
      exact join_map_serveRange file C hC)

/-- C1 witness: a concrete 3-byte file with chunk size 2 round-trips through
both strategies. -/
theorem chunked_round_trip_witness :
    clientChunkedDownload
      (clientChunkedUpload emptyServerState "f.mp4" [1, 2, 3] 2 "id1").1
      "f.mp4" 2 = .ok [1, 2, 3]
    ∧ optimizedChunkedDownload
        (optimizedChunkedUploadStore [] "f.mp4" [1, 2, 3] 2) "f.mp4" 2
        = some [1, 2, 3] := by
  constructor
  · exact (chunked_round_trip [1, 2, 3] 2 (by decide)).1 "f.mp4" "id1" "f.mp4"
      (clientChunkedUpload emptyServerState "f.mp4" [1, 2, 3] 2 "id1").1
      (by decide)
  · exact (chunked_round_trip [1, 2, 3] 2 (by decide)).2 [] "f.mp4"

/-! ### Reassembly (claim C3)

`handleChunkedDownload` pre-sizes `const chunks: ArrayBuffer[] = new
Array(totalChunks)`, each completion stores `chunks[chunkIndex] =
response.data` (in whatever order completions arrive), and `new Blob(chunks)`
concatenates slot `0..totalChunks-1` in strictly increasing index order. -/

/-- `chunks[chunkIndex] = response.data` for one completion event. -/
def applyCompletion (chunks : Nat → Option Bytes) (e : Nat × Bytes) :
    Nat → Option Bytes :=
  fun i => if i = e.1 then some e.2 else chunks i

/-- The slot array after all completion events, in their completion order. -/
def applyCompletions (events : List (Nat × Bytes)) : Nat → Option Bytes :=
  events.foldl applyCompletion (fun _ => none)

/-- `new Blob(chunks)`: concatenate slots `0..n-1` in index order. -/
def reassemble (n : Nat) (events : List (Nat × Bytes)) : Bytes :=
  ((List.range n).map (fun i => (applyCompletions events i).getD [])).flatten

theorem foldl_applyCompletion_not_mem (events : List (Nat × Bytes))
    (init : Nat → Option Bytes) (i : Nat)
    (h : i ∉ events.map Prod.fst) :
    events.foldl applyCompletion init i = init i := by
  induction events generalizing init with
  | nil => rfl
  | cons e es ih =>
      rw [List.foldl_cons]
      have hi_ne : i ≠ e.1 := by
        intro hc
        exact h (by
          rw [List.map_cons, hc]
          exact List.mem_cons_self _ _)
      rw [ih (applyCompletion init e) (by
        intro hc
        exact h (by
          rw [List.map_cons]
          exact List.mem_cons_of_mem _ hc))]
      rw [applyCompletion, if_neg hi_ne]

theorem foldl_applyCompletion_mem (events : List (Nat × Bytes))
    (init : Nat → Option Bytes) (i : Nat) (b : Bytes)
    (hnd : (events.map Prod.fst).Nodup) (hmem : (i, b) ∈ events) :
    events.foldl applyCompletion init i = some b := by
  induction events generalizing init with
  | nil => cases hmem
  | cons e es ih =>
      rw [List.foldl_cons]
      rcases List.mem_cons.mp hmem with he | hes
      · have hkey_notin : i ∉ es.map Prod.fst := by
          rw [List.map_cons] at hnd
          have := (List.nodup_cons.mp hnd).1
          rw [← he] at this
          exact this
        rw [foldl_applyCompletion_not_mem es _ i hkey_notin]
        rw [applyCompletion, ← he, if_pos rfl]
      · have hnd' : (es.map Prod.fst).Nodup := by
          rw [List.map_cons] at hnd
          exact (List.nodup_cons.mp hnd).2
        exact ih (applyCompletion init e) hnd' hes

theorem applyCompletions_perm (events events' : List (Nat × Bytes))
    (hperm : events.Perm events') (hnd : (events.map Prod.fst).Nodup) :
    ∀ i, applyCompletions events i = applyCompletions events' i := by
  intro i
  have hnd' : (events'.map Prod.fst).Nodup := ((hperm.map Prod.fst).nodup_iff).mp hnd
  by_cases hmem : ∃ b, (i, b) ∈ events
  · obtain ⟨b, hb⟩ := hmem
    rw [applyCompletions, applyCompletions,
      foldl_applyCompletion_mem events _ i b hnd hb,
      foldl_applyCompletion_mem events' _ i b hnd' (hperm.mem_iff.mp hb)]
  · have hni : i ∉ events.map Prod.fst := by
      intro hc
      rcases List.mem_map.mp hc with ⟨⟨p1, p2⟩, hp, hpe⟩
      simp only at hpe
      subst hpe
      exact hmem ⟨p2, hp⟩
    have hni' : i ∉ events'.map Prod.fst := by
      intro hc
      exact hni ((hperm.map Prod.fst).mem_iff.mpr hc)
    rw [applyCompletions, applyCompletions,
      foldl_applyCompletion_not_mem events _ i hni,
      foldl_applyCompletion_not_mem events' _ i hni']

/-- C3: the final byte sequence is determined by the set of completed parts
alone — feeding the completions to the reassembler in any permutation of the
completion order yields an identical output, which is always assembled by
iterating slots `0..n-1` in strictly increasing index order. -/
theorem reassemble_perm_invariant (n : Nat) (events events' : List (Nat × Bytes))
    (hperm : events.Perm events') (hnd : (events.map Prod.fst).Nodup) :
    reassemble n events = reassemble n events' := by
  rw [reassemble, reassemble]
  congr 1
  apply List.map_congr_left
  intro i _
  rw [applyCompletions_perm events events' hperm hnd i]

/-- C3 witness: two arrival orders of the same three parts produce the same
bytes. -/
theorem reassemble_perm_invariant_witness :
    reassemble 3 [(2, [30]), (0, [10]), (1, [20])]
      = reassemble 3 [(0, [10]), (1, [20]), (2, [30])] :=
  reassemble_perm_invariant 3 [(2, [30]), (0, [10]), (1, [20])]
    [(0, [10]), (1, [20]), (2, [30])] (by decide) (by decide)

/-! ### The parallel batcher (claims C5, C4)

Both components drive the chunk operations with
`for (let i = 0; i < totalChunks; i += PARALLEL_CHUNKS) {`
`  const batch = [];`
`  for (let j = i; j < Math.min(i + PARALLEL_CHUNKS, totalChunks); j++)`
`    batch.push(op(j));`
`  await Promise.all(batch); }`
so the indices are dispatched in consecutive windows of at most
`PARALLEL_CHUNKS`, and a window's operations all settle before the next
window is launched. -/

/-- The windows of the batching loop, from loop counter `i`.  The loop
advances by `L ≥ 1` each iteration, so `fuel = N` steps always suffice; the
fuel only makes the recursion structural. -/
def batchesGo (L : Nat) : Nat → Nat → Nat → List (List Nat)
  | 0, _, _ => []
  | fuel + 1, i, N =>
      if i < N then
        List.range' i (min (i + L) N - i) :: batchesGo L fuel (i + L) N
      else []

/-- The windows `[0,L), [L,2L), ...` of `[0, N)` the loop dispatches. -/
def batches (N L : Nat) : List (List Nat) := batchesGo L N 0 N

theorem batchesGo_flatten {L : Nat} (hL : 0 < L) :
    ∀ (fuel i N : Nat), N - i ≤ fuel →
      (batchesGo L fuel i N).flatten = List.range' i (N - i) := by
  intro fuel
  induction fuel with
  | zero =>
      intro i N h
      have : N - i = 0 := by omega
      rw [batchesGo, this]
      rfl
  | succ fuel ih =>
      intro i N h
      rw [batchesGo]
      by_cases hi : i < N
      · rw [if_pos hi, List.flatten_cons, ih (i + L) N (by omega)]
        have harr : i + (min (i + L) N - i) = min (i + L) N := by omega
        by_cases hend : i + L < N
        · have h1 : min (i + L) N - i = L := by omega
          have h2 : List.range' i L ++ List.range' (i + L) (N - (i + L))
              = List.range' i (N - (i + L) + L) := List.range'_append_1 i L _
          rw [h1, h2]
          congr 1
          omega
        · have h1 : min (i + L) N - i = N - i := by omega
          have h2 : N - (i + L) = 0 := by omega
          rw [h1, h2]
          simp
      · rw [if_neg hi]
        have : N - i = 0 := by omega
        rw [this]
        rfl

theorem batches_flatten {N L : Nat} (hL : 0 < L) :
    (batches N L).flatten = List.range N := by
  rw [batches, batchesGo_flatten hL N 0 N (by omega), Nat.sub_zero,
    List.range_eq_range']

theorem batchesGo_window_le {L : Nat} :
    ∀ (fuel i N : Nat), ∀ w ∈ batchesGo L fuel i N, w.length ≤ L := by
  intro fuel
  induction fuel with
  | zero =>
      intro i N w hw
      cases hw
  | succ fuel ih =>
      intro i N w hw
      rw [batchesGo] at hw
      by_cases hi : i < N
      · rw [if_pos hi] at hw
        rcases List.mem_cons.mp hw with h1 | h2
        · rw [h1, List.length_range']
          omega
        · exact ih (i + L) N w h2
      · rw [if_neg hi] at hw
        cases hw

/-! An instrumented transport records a start event when a part operation is
launched and a stop event when it settles; the in-flight count of a trace
prefix is the number of starts minus the number of stops seen so far. -/

/-- An event observed by an instrumented part transport. -/
inductive PartEvent where
  | launch (j : Nat)
  | settle (j : Nat)
deriving DecidableEq, Repr

/-- Is the event the launch of a part operation? -/
def PartEvent.isLaunch : PartEvent → Bool
  | .launch _ => true
  | .settle _ => false

/-- Number of operations launched in a trace. -/
def launchCount (t : List PartEvent) : Nat :=
  t.countP PartEvent.isLaunch

/-- Number of operations settled in a trace. -/
def settleCount (t : List PartEvent) : Nat :=
  t.countP (fun e => !e.isLaunch)

/-- Operations outstanding after a trace: launches minus settles. -/
def inflight (t : List PartEvent) : Nat :=
  launchCount t - settleCount t

/-- A trace of one window `w`: every operation of the window is launched
once and settles once, in any interleaving (`Promise.all` waits for all of
them before the loop continues). -/
def WindowTrace (w : List Nat) (t : List PartEvent) : Prop :=
  launchCount t = w.length ∧ settleCount t = w.length

/-- A trace of the whole batched loop: the concatenation of one complete
trace per window, in window order. -/
def ValidBatchTrace (ws : List (List Nat)) (t : List PartEvent) : Prop :=
  ∃ ts : List (List PartEvent), List.Forall₂ WindowTrace ws ts ∧ t = ts.flatten

theorem isPre_append_split {α : Type} (a : List α) :
    ∀ (b p : List α), p <+: a ++ b →
      p <+: a ∨ ∃ q, p = a ++ q ∧ q <+: b := by
  induction a with
  | nil =>
      intro b p hp
      exact Or.inr ⟨p, rfl, hp⟩
  | cons x a ih =>
      intro b p hp
      cases p with
      | nil => exact Or.inl ⟨x :: a, rfl⟩
      | cons y p' =>
          obtain ⟨t, ht⟩ := hp
          rw [List.cons_append, List.cons_append] at ht
          have hyx : y = x := (List.cons.injEq _ _ _ _).mp ht |>.1
          have htail : p' ++ t = a ++ b := (List.cons.injEq _ _ _ _).mp ht |>.2
          rcases ih b p' ⟨t, htail⟩ with h1 | ⟨q, hq1, hq2⟩
          · left
            obtain ⟨t', ht'⟩ := h1
            exact ⟨t', by rw [List.cons_append, ht', hyx]⟩
          · right
            exact ⟨q, by rw [List.cons_append, hq1, hyx], hq2⟩

theorem countP_le_of_isPre {α : Type} (p : α → Bool) {l₁ l₂ : List α}
    (h : l₁ <+: l₂) : l₁.countP p ≤ l₂.countP p := by
  obtain ⟨t, ht⟩ := h
  rw [← ht, List.countP_append]
  omega

theorem windowTraces_inflight_le {L : Nat} :
    ∀ (ws : List (List Nat)) (ts : List (List PartEvent)),
      List.Forall₂ WindowTrace ws ts →
      (∀ w ∈ ws, w.length ≤ L) →
      ∀ p, p <+: ts.flatten → inflight p ≤ L := by
  intro ws ts hf
  induction hf with
  | nil =>
      intro _ p hp
      have : p = [] := List.prefix_nil.mp (by simpa using hp)
      rw [this]
      exact Nat.zero_le L
  | @cons w t₀ ws' ts' hwt hrest ih =>
      intro hle p hp
      rw [List.flatten_cons] at hp
      rcases isPre_append_split t₀ ts'.flatten p hp with h1 | ⟨q, hq1, hq2⟩
      · have hlc : launchCount p ≤ launchCount t₀ :=
          countP_le_of_isPre _ h1
        have hw : launchCount t₀ = w.length := hwt.1
        have hwL : w.length ≤ L := hle w (List.mem_cons_self _ _)
        rw [inflight]
        omega
      · have hle' : ∀ w' ∈ ws', w'.length ≤ L := fun w' hw' =>
          hle w' (List.mem_cons_of_mem _ hw')
        have hih : inflight q ≤ L := ih hle' q hq2
        rw [hq1, inflight, launchCount, settleCount, List.countP_append,
          List.countP_append]
        have h1 : List.countP PartEvent.isLaunch t₀ = w.length := hwt.1
        have h2 : List.countP (fun e => !e.isLaunch) t₀ = w.length := hwt.2
        rw [inflight, launchCount, settleCount] at hih
        omega

/-- C5: the windows dispatched by the batching loop cover `[0, N)` in order,
each window holds at most `L` part operations, and in every interleaved
execution trace (one complete trace per window, windows in order) the number
of outstanding part operations never exceeds `L`. -/
theorem batcher_concurrency_bound (N L : Nat) (t : List PartEvent)
    (hL : 0 < L) (ht : ValidBatchTrace (batches N L) t) :
    (batches N L).flatten = List.range N
    ∧ (∀ w ∈ batches N L, w.length ≤ L)
    ∧ (∀ p, p <+: t → inflight p ≤ L) := by
  refine ⟨batches_flatten hL, ?_, ?_⟩
  · intro w hw
    exact batchesGo_window_le N 0 N w hw
  · obtain ⟨ts, hf, hflat⟩ := ht
    intro p hp
    rw [hflat] at hp
    exact windowTraces_inflight_le (batches N L) ts hf
      (fun w hw => batchesGo_window_le N 0 N w hw) p hp

/-- C5 witness: four parts under limit 3 give windows `[0,1,2]` and `[3]`;
along a trace interleaving the first window's operations, the in-flight
count stays at most 3. -/
theorem batcher_concurrency_bound_witness :
    inflight [PartEvent.launch 0, PartEvent.launch 1, PartEvent.launch 2] ≤ 3 := by
  have hvalid : ValidBatchTrace (batches 4 3)
      [PartEvent.launch 0, PartEvent.launch 1, PartEvent.launch 2,
       PartEvent.settle 1, PartEvent.settle 0, PartEvent.settle 2,
       PartEvent.launch 3, PartEvent.settle 3] := by
    refine ⟨[[PartEvent.launch 0, PartEvent.launch 1, PartEvent.launch 2,
              PartEvent.settle 1, PartEvent.settle 0, PartEvent.settle 2],
             [PartEvent.launch 3, PartEvent.settle 3]], ?_, by decide⟩
    have hb : batches 4 3 = [[0, 1, 2], [3]] := by decide
    rw [hb]
    exact List.Forall₂.cons ⟨by decide, by decide⟩
      (List.Forall₂.cons ⟨by decide, by decide⟩ List.Forall₂.nil)
  exact (batcher_concurrency_bound 4 3 _ (by decide) hvalid).2.2
    [PartEvent.launch 0, PartEvent.launch 1, PartEvent.launch 2] (by decide)

/-! ### Direct chunked upload under part failures (claim C4)

In `OptimizedMode.handleChunkedUpload`, each `uploadChunk(chunkIndex)` PUTs
the chunk to a presigned URL for `` `${file.name}.part${chunkIndex}` ``; a
rejected promise makes `Promise.all` reject, the `catch` sets
`Chunked Upload Failed`, and no later window is launched.  Chunk PUTs that
succeed — including siblings of the failing one in the same window — have
already stored their objects in the MinIO bucket, which the `/videos`
listing returns in full. -/

/-- Run one window: each launched part either fails (no effect) or stores
its chunk object in the bucket. -/
def runWindow (bucket : List (String × Bytes)) (name : String) (file : Bytes)
    (C : Nat) (fails : Nat → Bool) (w : List Nat) : List (String × Bytes) :=
  w.foldl (fun b j =>
    if fails j then b else aset b (partName name j) (chunkOf file C j)) bucket

/-- Run the windows in order; a window containing a failure stops the loop
with the bucket as already mutated, and `false` (job failed). -/
def runWindows (name : String) (file : Bytes) (C : Nat) (fails : Nat → Bool) :
    List (String × Bytes) → List (List Nat) → List (String × Bytes) × Bool
  | b, [] => (b, true)
  | b, w :: ws =>
      let b' := runWindow b name file C fails w
      if w.any fails then (b', false)
      else runWindows name file C fails b' ws

/-- The direct chunked upload with a failing transport: on success of all
windows, the whole file is additionally PUT under the target name. -/
def optimizedChunkedUploadAttempt (bucket : List (String × Bytes))
    (name : String) (file : Bytes) (C : Nat) (fails : Nat → Bool) :
    List (String × Bytes) × Bool :=
  let r := runWindows name file C fails bucket
    (batches (totalChunks file.length C) PARALLEL_CHUNKS)
  if r.2 then (aset r.1 name file, true) else r

/-- The names the `/videos` listing shows: every object in the MinIO bucket
plus every file in the persistent local storage. -/
def listedNames (bucket persistent : List (String × Bytes)) : List String :=
  bucket.map Prod.fst ++ persistent.map Prod.fst

theorem partName_ne (name : String) (j : Nat) : partName name j ≠ name := by
  intro h
  have hlen := congrArg String.length h
  rw [partName, String.length_append, String.length_append] at hlen
  have h5 : (".part" : String).length = 5 := rfl
  omega

theorem runWindow_alookup_name (bucket : List (String × Bytes)) (name : String)
    (file : Bytes) (C : Nat) (fails : Nat → Bool) :
    ∀ w, alookup (runWindow bucket name file C fails w) name
      = alookup bucket name := by
  intro w
  induction w generalizing bucket with
  | nil => rfl
  | cons j js ih =>
      rw [runWindow, List.foldl_cons]
      by_cases hf : fails j
      · rw [if_pos hf, ← runWindow, ih]
      · rw [if_neg hf, ← runWindow, ih]
        exact alookup_aset_ne _ _ _ _ (fun h => partName_ne name j h.symm)

theorem runWindows_alookup_name (name : String) (file : Bytes) (C : Nat)
    (fails : Nat → Bool) :
    ∀ (ws : List (List Nat)) (bucket : List (String × Bytes)),
      alookup (runWindows name file C fails bucket ws).1 name
        = alookup bucket name := by
  intro ws
  induction ws with
  | nil =>
      intro bucket
      rfl
  | cons w ws ih =>
      intro bucket
      rw [runWindows]
      by_cases ha : w.any fails
      · rw [if_pos ha]
        exact runWindow_alookup_name bucket name file C fails w
      · rw [if_neg ha, ih, runWindow_alookup_name]

theorem runWindows_fails (name : String) (file : Bytes) (C : Nat)
    (fails : Nat → Bool) :
    ∀ (ws : List (List Nat)) (bucket : List (String × Bytes)) (j : Nat),
      j ∈ ws.flatten → fails j = true →
      (runWindows name file C fails bucket ws).2 = false := by
  intro ws
  induction ws with
  | nil =>
      intro bucket j hj _
      cases hj
  | cons w ws ih =>
      intro bucket j hj hfail
      rw [List.flatten_cons] at hj
      rw [runWindows]
      by_cases ha : w.any fails
      · rw [if_pos ha]
      · rw [if_neg ha]
        rcases List.mem_append.mp hj with h1 | h2
        · exact absurd (List.any_eq_true.mpr ⟨j, h1, hfail⟩) ha
        · exact ih _ j h2 hfail

/-- C4 (amended): if any part operation of the direct chunked upload fails,
the job reports failure and the final object under the target name is never
stored (the bucket's entry for that name is unchanged) — but chunk objects
are not rolled back. -/
theorem failed_upload_no_final_object (bucket : List (String × Bytes))
    (name : String) (file : Bytes) (C : Nat) (fails : Nat → Bool)
    (hfail : ∃ j, j < totalChunks file.length C ∧ fails j = true) :
    (optimizedChunkedUploadAttempt bucket name file C fails).2 = false
    ∧ alookup (optimizedChunkedUploadAttempt bucket name file C fails).1 name
        = alookup bucket name := by
  obtain ⟨j, hj, hfj⟩ := hfail
  have hmem : j ∈ (batches (totalChunks file.length C) PARALLEL_CHUNKS).flatten := by
    rw [batches_flatten (by decide)]
    exact List.mem_range.mpr hj
  have h2 : (runWindows name file C fails bucket
      (batches (totalChunks file.length C) PARALLEL_CHUNKS)).2 = false :=
    runWindows_fails name file C fails _ bucket j hmem hfj
  constructor
  · rw [optimizedChunkedUploadAttempt]
    simp only [h2, Bool.false_eq_true, if_false]
  · rw [optimizedChunkedUploadAttempt]
    simp only [h2, Bool.false_eq_true, if_false]
    exact runWindows_alookup_name name file C fails _ bucket

/-- C4 witness for the amended claim: three 1-byte parts with part 1 forced
to fail — the job fails and no object named `f` is stored. -/
theorem failed_upload_no_final_object_witness :
    (optimizedChunkedUploadAttempt [] "f" [7, 8, 9] 1 (fun j => j == 1)).2 = false
    ∧ alookup (optimizedChunkedUploadAttempt [] "f" [7, 8, 9] 1
        (fun j => j == 1)).1 "f" = alookup ([] : List (String × Bytes)) "f" :=
  failed_upload_no_final_object [] "f" [7, 8, 9] 1 (fun j => j == 1)
    ⟨1, by decide, by decide⟩

/-- C4 counterexample to the claim as stated: in that same failed direct
chunked upload, the part object `f.part0` was stored and is visible via the
listing — the transfer does leak a partial artifact. -/
theorem failed_upload_leaks_part_object :
    (optimizedChunkedUploadAttempt [] "f" [7, 8, 9] 1 (fun j => j == 1)).2 = false
    ∧ "f.part0" ∈ listedNames
        (optimizedChunkedUploadAttempt [] "f" [7, 8, 9] 1 (fun j => j == 1)).1
        [] := by
  constructor
  · decide
  · decide

/-! ### The operations issued by the direct chunked upload (claim C6)

`OptimizedMode.handleChunkedUpload` requests a presigned PUT URL and PUTs
each chunk as `` `${file.name}.part${j}` ``, then requests one more presigned
PUT URL for `file.name` and PUTs the whole file.  The server does expose
`/optimized/initiate-multipart` and `/optimized/complete-multipart` routes
(forwarding to `initiateNewMultipartUpload` / `completeMultipartUpload`),
but this upload path never calls them. -/

/-- The backend-facing operations the client or server can issue. -/
inductive StoreOp where
  | getUploadUrl (name : String)
  | putPresigned (name : String) (payload : Bytes)
  | initiateMultipartOp (name : String)
  | completeMultipartOp (name : String) (parts : List (Nat × String))
deriving DecidableEq, Repr

/-- Is the operation a backend-native multipart completion? -/
def StoreOp.isCompleteMultipart : StoreOp → Bool
  | .completeMultipartOp _ _ => true
  | _ => false

/-- The operations of `handleChunkedUpload` in `OptimizedMode.tsx`, in the
loop's index-order linearisation: per chunk a URL request and a presigned
PUT of `name.partj`, then a URL request and a presigned PUT of the whole
file under the target name. -/
def optimizedChunkedUploadOps (name : String) (file : Bytes) (C : Nat) :
    List StoreOp :=
  ((List.range (totalChunks file.length C)).map (fun j =>
      [StoreOp.getUploadUrl (partName name j),
       StoreOp.putPresigned (partName name j) (chunkOf file C j)])).flatten
  ++ [StoreOp.getUploadUrl name, StoreOp.putPresigned name file]

/-- C6 counterexample: uploading a concrete 2-byte file in two chunks over
the direct strategy issues no multipart-completion operation at all — the
final object comes from a plain whole-file presigned PUT, so it is not
"produced by the backend-native multipart-completion operation". -/
theorem direct_upload_no_multipart_counterexample :
    (optimizedChunkedUploadOps "f" [5, 6] 1).countP StoreOp.isCompleteMultipart = 0
    ∧ (optimizedChunkedUploadOps "f" [5, 6] 1).getLast?
        = some (StoreOp.putPresigned "f" [5, 6]) := by
  constructor
  · decide
  · decide

/-- C6 (amended): the direct strategy's final object is produced by a single
whole-file PUT through a presigned URL for the target name, issued after the
chunk PUTs; the upload never issues a multipart-completion operation. -/
theorem direct_upload_final_whole_file_put (name : String) (file : Bytes)
    (C : Nat) :
    (∀ op ∈ optimizedChunkedUploadOps name file C,
        op.isCompleteMultipart = false)
    ∧ (optimizedChunkedUploadOps name file C).getLast?
        = some (StoreOp.putPresigned name file) := by
  constructor
  · intro op hop
    rw [optimizedChunkedUploadOps] at hop
    rcases List.mem_append.mp hop with h1 | h2
    · rcases List.mem_flatten.mp h1 with ⟨l, hl, hop'⟩
      rcases List.mem_map.mp hl with ⟨j, _, hj⟩
      rw [← hj] at hop'
      rcases List.mem_cons.mp hop' with he | he2
      · rw [he]
        rfl
      · rcases List.mem_cons.mp he2 with he3 | he4
        · rw [he3]
          rfl
        · cases he4
    · rcases List.mem_cons.mp h2 with he | he2
      · rw [he]
        rfl
      · rcases List.mem_cons.mp he2 with he3 | he4
        · rw [he3]
          rfl
        · cases he4
  · rw [optimizedChunkedUploadOps]
    have hsplit : ((List.range (totalChunks file.length C)).map (fun j =>
          [StoreOp.getUploadUrl (partName name j),
           StoreOp.putPresigned (partName name j) (chunkOf file C j)])).flatten
        ++ [StoreOp.getUploadUrl name, StoreOp.putPresigned name file]
        = (((List.range (totalChunks file.length C)).map (fun j =>
            [StoreOp.getUploadUrl (partName name j),
             StoreOp.putPresigned (partName name j) (chunkOf file C j)])).flatten
          ++ [StoreOp.getUploadUrl name]) ++ [StoreOp.putPresigned name file] := by
      rw [List.append_assoc]
      rfl
    rw [hsplit, List.getLast?_concat]

/-- C6 witness: for a concrete one-chunk upload, the first issued operation
is not a multipart completion and the last operation is the whole-file
presigned PUT. -/
theorem direct_upload_final_whole_file_put_witness :
    StoreOp.isCompleteMultipart (StoreOp.getUploadUrl "g.part0") = false
    ∧ (optimizedChunkedUploadOps "g" [1] 1).getLast?
        = some (StoreOp.putPresigned "g" [1]) :=
  ⟨(direct_upload_final_whole_file_put "g" [1] 1).1
      (StoreOp.getUploadUrl "g.part0") (by decide),
   (direct_upload_final_whole_file_put "g" [1] 1).2⟩

/-! ### The chunk-session endpoints (claims C7, C8) -/

/-- C7 counterexample: `chunk/init` accepts `totalChunks = -1` (a negative
count is truthy in JS) and allocates session state, while the claim demands
an `InvalidArgument` failure for every `expectedPartCount <= 0`. -/
theorem chunkInit_negative_accepted :
    chunkInit emptyServerState "video.mp4" (-1) "u1"
      = .ok ({ sessions := [("u1", [])], persistent := [] }, "u1") := by
  decide

/-- C7 (amended): `chunk/init` fails with `InvalidArgument` exactly when the
target name is empty or `expectedPartCount` equals `0` (the only falsy
number); any other count — negative included — allocates session state and
returns the fresh session id. -/
theorem chunkInit_spec (st : ServerState) (name : String) (tc : Int)
    (fresh : String) :
    (chunkInit st name tc fresh = .err .invalidArgument
      ↔ (name = "" ∨ tc = 0))
    ∧ (∀ st' f, chunkInit st name tc fresh = .ok (st', f) →
        f = fresh ∧ (alookup st'.sessions fresh).isSome = true) := by
  by_cases hcond : name = "" ∨ tc = 0
  · constructor
    · rw [chunkInit, if_pos hcond]
      exact ⟨fun _ => hcond, fun _ => rfl⟩
    · intro st' f h
      rw [chunkInit, if_pos hcond] at h
      exact Outcome.noConfusion h
  · constructor
    · rw [chunkInit, if_neg hcond]
      exact ⟨fun h => Outcome.noConfusion h, fun h => absurd h hcond⟩
    · intro st' f h
      rw [chunkInit, if_neg hcond] at h
      simp only [Outcome.ok.injEq, Prod.mk.injEq] at h
      refine ⟨h.2.symm, ?_⟩
      rw [← h.1]
      show (alookup (if (alookup st.sessions fresh).isSome = true
          then st.sessions else (fresh, []) :: st.sessions) fresh).isSome = true
      by_cases hsome : (alookup st.sessions fresh).isSome = true
      · rw [if_pos hsome]
        exact hsome
      · rw [if_neg hsome, alookup_cons, if_pos rfl]
        rfl

/-- C7 witness: initiating with a nonempty name and count 3 allocates the
session and returns the supplied fresh id. -/
theorem chunkInit_spec_witness :
    "u1" = "u1"
    ∧ (alookup ({ sessions := [("u1", ([] : ChunkDir))], persistent := [] } : ServerState).sessions "u1").isSome = true :=
  (chunkInit_spec emptyServerState "f.mp4" 3 "u1").2
    { sessions := [("u1", [])], persistent := [] } "u1" (by decide)

/-- C8 counterexample: on a freshly initiated session (conceptually opened
for 2 parts — the server never records the expected count), recording index
5, far outside `[0, 2)`, succeeds instead of failing with
`IndexOutOfRange`. -/
theorem recordPart_out_of_range_accepted :
    chunkUploadEp { sessions := [("u1", [])], persistent := [] } "u1" 5 [9]
      = .ok { sessions := [("u1", [(5, [9])])], persistent := [] } := by
  decide

/-- C8 (amended): `chunk/upload` fails with `SessionNotFound` for an unknown
session id; for a known session it accepts any index — no range check exists
and the session state holds no expected part count — and re-recording an
index replaces that chunk file, so recording the same part twice is accepted
(not an error) and leaves the state exactly as after one recording. -/
theorem recordPart_spec (st : ServerState) (id : String) (i : Nat)
    (b : Bytes) :
    (alookup st.sessions id = none →
        chunkUploadEp st id i b = .err .sessionNotFound)
    ∧ (∀ dir, alookup st.sessions id = some dir →
        chunkUploadEp st id i b
          = .ok { st with
                  sessions := aupdate st.sessions id (fun d => aset d i b) })
    ∧ (∀ st', chunkUploadEp st id i b = .ok st' →
        chunkUploadEp st' id i b = .ok st') := by
  refine ⟨?_, ?_, ?_⟩
  · intro h
    simp only [chunkUploadEp, h]
  · intro dir h
    simp only [chunkUploadEp, h]
  · intro st' h'
    rcases hlook : alookup st.sessions id with _ | dir
    · rw [chunkUploadEp, hlook] at h'
      exact Outcome.noConfusion h'
    · simp only [chunkUploadEp, hlook, Outcome.ok.injEq] at h'
      subst h'
      have hlook2 : alookup
          (aupdate st.sessions id (fun d => aset d i b)) id
          = some (aset dir i b) := by
        rw [alookup_aupdate_self, hlook]
        rfl
      simp only [chunkUploadEp, hlook2]
      rw [aupdate_aupdate]
      have hfun : (fun d => aset (aset d i b) i b) = (fun d => aset d i b) :=
        funext (fun d => aset_aset d i b b)
      rw [hfun]

/-- C8 witness: recording part 0 on a live session succeeds and records the
index. -/
theorem recordPart_spec_witness :
    chunkUploadEp { sessions := [("u1", [])], persistent := [] } "u1" 0 [4]
      = .ok { sessions := aupdate [("u1", [])] "u1" (fun d => aset d 0 [4]),
              persistent := [] } :=
  (recordPart_spec { sessions := [("u1", [])], persistent := [] }
    "u1" 0 [4]).2.1 [] (by decide)

/-! ### The ranged chunk download (claims C9, C10) -/

/-- C9 counterexample: with `"f"` stored as the 2-byte object `[1, 2]`, the
range request `start=0&end=4` (5 bytes expected) is answered with the 2
available bytes and a success status — the server never fails with
`RangeUnsatisfiable` when the source is shorter than the requested range. -/
theorem short_range_not_rejected :
    chunkDownloadEp { sessions := [], persistent := [("f", [1, 2])] } "f"
        (some 0) (some 4)
      = .ok (.payload [1, 2]) := by
  decide

/-- C9 (amended): for a stored file, every well-formed range request
(`start ≤ end`) succeeds and returns the range's bytes clamped at the end of
the file — requests beyond the file yield the available bytes, not a
`RangeUnsatisfiable` failure; for the in-bounds ranges the chunked client
derives from the probed size, the payload is exactly
`end - start + 1` bytes. -/
theorem downloadPart_spec (st : ServerState) (name : String) (file : Bytes)
    (h : alookup st.persistent name = some file) :
    (∀ start stop, start ≤ stop →
        chunkDownloadEp st name (some start) (some stop)
          = .ok (.payload (serveRange file start stop)))
    ∧ (∀ C i, 0 < C → i < totalChunks file.length C →
        (serveRange file (i * C) (min (i * C + C) file.length - 1)).length
          = (min (i * C + C) file.length - 1) + 1 - i * C) := by
  constructor
  · intro start stop hss
    simp only [chunkDownloadEp, h, Option.getD_some]
    rw [if_neg (by omega)]
  · intro C i hC hi
    have hstart : i * C < file.length := (lt_totalChunks_iff hC).mp hi
    rw [serveRange]
    simp only [List.length_take, List.length_drop]
    omega

/-- C9 witness: a stored 3-byte file serves the range `[0,1]` as its bytes,
and the second chunk of a chunk-size-2 download has exactly
`end - start + 1 = 1` byte. -/
theorem downloadPart_spec_witness :
    chunkDownloadEp { sessions := [], persistent := [("f", [1, 2, 3])] } "f"
        (some 0) (some 1)
      = .ok (.payload (serveRange [1, 2, 3] 0 1))
    ∧ (serveRange [1, 2, 3] (1 * 2) (min (1 * 2 + 2) 3 - 1)).length
        = (min (1 * 2 + 2) 3 - 1) + 1 - 1 * 2 :=
  ⟨(downloadPart_spec { sessions := [], persistent := [("f", [1, 2, 3])] }
      "f" [1, 2, 3] (by decide)).1 0 1 (by decide),
   (downloadPart_spec { sessions := [], persistent := [("f", [1, 2, 3])] }
      "f" [1, 2, 3] (by decide)).2 2 1 (by decide) (by decide)⟩

/-- C10: a chunked-download request without the `end` query parameter is a
pure size probe — it answers only the stored file's size and transfers no
payload bytes — and the client's part count `ceil(size / CHUNK_SIZE)` is
exactly characterised as the least `k` with `size ≤ k * CHUNK_SIZE`. -/
theorem size_probe_spec (st : ServerState) (name : String) (file : Bytes)
    (h : alookup st.persistent name = some file) :
    chunkDownloadEp st name none none = .ok (.sizeInfo file.length)
    ∧ (DownloadResponse.sizeInfo file.length).transferredBytes = []
    ∧ (∀ k, totalChunks file.length CHUNK_SIZE ≤ k
        ↔ file.length ≤ k * CHUNK_SIZE) := by
  refine ⟨?_, rfl, ?_⟩
  · simp only [chunkDownloadEp, h]
  · intro k
    exact totalChunks_le_iff (by decide)

/-- C10 witness: probing a stored 3-byte file returns its size 3 (and no
bytes). -/
theorem size_probe_spec_witness :
    chunkDownloadEp { sessions := [], persistent := [("v", [1, 2, 3])] } "v"
        none none
      = .ok (.sizeInfo 3) :=
  (size_probe_spec { sessions := [], persistent := [("v", [1, 2, 3])] }
    "v" [1, 2, 3] (by decide)).1

end FileUploader
